import Mathlib

/-!
Shallow embedding of the enrichment-analysis core of the `webgestalt_rust`
library, together with theorems checking its natural-language specification.

Conventions used throughout:
- 64-bit floats are modelled as exact rationals (`ℚ`); the float literal
  `0.000001` appearing in the source is modelled as the rational `1/1000000`.
- Rust hash sets of strings are modelled as duplicate-free lists; hash maps
  are modelled as association lists in insertion order.
- `x as u64` on an `i64` is modelled by reduction modulo `2 ^ 64`.
- Division by zero in `ℚ` yields `0`; every place where the source can divide
  by zero (producing `inf`/`NaN`) is noted at the definition.
- Parallel iteration in the source (rayon) is modelled sequentially; where the
  source pushes results through a mutex (so the order is unspecified), the
  model fixes the input order.
-/

/-- Record of one analyte set, from `readers/utils.rs` (`Item`):
fields `id`, `url`, `parts` (the member list, duplicates tolerated). -/
structure Item where
  id : String
  url : String
  parts : List String
  deriving DecidableEq, Repr

/-- ORA configuration, from `methods/ora.rs` (`ORAConfig`):
`min_overlap : i64`, `min_set_size : usize`, `max_set_size : usize`. -/
structure ORAConfig where
  min_overlap : ℤ
  min_set_size : ℕ
  max_set_size : ℕ
  deriving DecidableEq, Repr

/-- Default ORA configuration (`ORAConfig::default`): 5 / 5 / 500. -/
def ORAConfig.default : ORAConfig := ⟨5, 5, 500⟩

/-- Hypergeometric probability mass function over `ℚ`, modelling the
`statrs` `Hypergeometric(population := m, successes := j, draws := n)`
distribution used by `methods/ora.rs`:
`pmf i = C(j,i) * C(m-j, n-i) / C(m,n)` for `i ≤ n`, and `0` otherwise
(for `i > n` the binomial coefficient of the negative number `n - i` is `0`). -/
def hyper_pmf (m j n i : ℕ) : ℚ :=
  if i ≤ n then ((j.choose i * (m - j).choose (n - i) : ℕ) : ℚ) / ((m.choose n : ℕ) : ℚ)
  else 0

/-- Cumulative distribution function `P(X ≤ k)` of the hypergeometric
distribution (the `statrs` `DiscreteCDF::cdf`). -/
def hyper_cdf (m j n k : ℕ) : ℚ :=
  ∑ i ∈ Finset.range (k + 1), hyper_pmf m j n i

/-- Survival function `P(X > k) = 1 - cdf k` of the hypergeometric
distribution (the `statrs` `DiscreteCDF::sf`). -/
def hyper_sf (m j n k : ℕ) : ℚ := 1 - hyper_cdf m j n k

/-- Rust `x as u64` conversion applied to an `i64` value: reduction modulo
`2 ^ 64` (negative values wrap around). -/
def i64_as_u64 (x : ℤ) : ℕ := (x % (2 : ℤ) ^ 64).toNat

/-- The hypergeometric upper-tail used by ORA, from `methods/ora.rs` lines
42–45: `ora_p(m, j, n, k) = Hypergeometric::new(m, j, n).sf((k - 1) as u64)`.
The `(k - 1) as u64` cast wraps for `k = 0`. -/
def ora_p (m j n k : ℤ) : ℚ :=
  hyper_sf (i64_as_u64 m) (i64_as_u64 j) (i64_as_u64 n) (i64_as_u64 (k - 1))

/-- Insert `x` into `l` after every leading element `y` with `le y x`.
Helper for `stable_sort`. -/
def stable_insert (le : α → α → Bool) (x : α) : List α → List α
  | [] => [x]
  | y :: ys => if le y x then y :: stable_insert le x ys else x :: y :: ys

/-- Stable insertion sort with respect to the boolean relation `le`. For a
total preorder this produces exactly the output of Rust's stable `sort_by`
(stability plus sortedness determine the result uniquely); it is used here
instead of a merge sort so that results compute by kernel reduction. -/
def stable_sort (le : α → α → Bool) (l : List α) : List α :=
  l.foldl (fun acc x => stable_insert le x acc) []

/-- Benjamini–Hochberg reverse scan: walk the (index, p) pairs sorted by p
descending, from rank `rank` downward, carrying the running minimum `prev`;
each output is `min prev (min 1 (p * m / rank))`. Models the loop of
`benjamini_hochberg` in `stat.rs` (and the `adjustp` crate procedure used by
`methods/ora.rs`). -/
def bh_scan : List (ℕ × ℚ) → ℕ → ℕ → ℚ → List (ℕ × ℚ)
  | [], _, _, _ => []
  | (idx, p) :: rest, m, rank, prev =>
    let fdr := min prev (min 1 (p * (m : ℚ) / (rank : ℚ)))
    (idx, fdr) :: bh_scan rest m (rank - 1) fdr

/-- Benjamini–Hochberg adjustment of a vector of p-values, index-aligned with
the input: sort ascending (stably), scan from the largest rank to the
smallest with clamping to 1 and enforced monotonicity, and write each
adjusted value back to its original index. -/
def bh_adjust (ps : List ℚ) : List ℚ :=
  let m := ps.length
  let sorted := stable_sort (fun a b => decide (a.2 ≤ b.2)) ps.enum
  let pairs := bh_scan sorted.reverse m m 1
  (List.range m).map (fun i => (((pairs.find? (fun x => x.1 = i)).map Prod.snd).getD 0))

/-- Partially scored ORA row (`PartialORAResult` in `methods/ora.rs`). -/
structure PreORAResult where
  set : String
  p : ℚ
  overlap : ℤ
  expected : ℚ
  deriving DecidableEq, Repr

/-- Final ORA row (`ORAResult` in `methods/ora.rs`). -/
structure ORAResult where
  set : String
  p : ℚ
  fdr : ℚ
  overlap : ℤ
  expected : ℚ
  enrichment_ratio : ℚ
  deriving DecidableEq, Repr

/-- Size filter of `get_ora` (line 73):
`min_set_size ≤ |parts| ∧ |parts| ≤ max_set_size`. -/
def ora_size_pass (config : ORAConfig) (i : Item) : Bool :=
  config.min_set_size ≤ i.parts.length && i.parts.length ≤ config.max_set_size

/-- The count `k` of `get_ora` (lines 77–81): number of entries of `parts`
(duplicates counted) contained in the interest list. -/
def ora_k (interest_list : List String) (i : Item) : ℤ :=
  ((i.parts.filter (fun a => interest_list.contains a)).length : ℤ)

/-- The count `j` of `get_ora` (lines 82–84): number of entries of `parts`
(duplicates counted) contained in the reference list. -/
def ora_j (reference : List String) (i : Item) : ℤ :=
  ((i.parts.filter (fun a => reference.contains a)).length : ℤ)

/-- One iteration of the `get_ora` scoring loop (lines 72–96): a set outside
the size bounds, or with interest overlap `k < min_overlap`, produces no row
at all; otherwise a `PreORAResult` with `p = ora_p m j n k` and
`expected = j * (m / n)` is produced. -/
def ora_row (interest_list reference : List String) (config : ORAConfig)
    (i : Item) : Option PreORAResult :=
  if ora_size_pass config i then
    let m : ℤ := reference.length
    let n : ℤ := interest_list.length
    let j := ora_j reference i
    let k := ora_k interest_list i
    if config.min_overlap ≤ k then
      some ⟨i.id, ora_p m j n k, k, (j : ℚ) * ((m : ℚ) / (n : ℚ))⟩
    else none
  else none

/-- The ORA engine `get_ora` of `methods/ora.rs` (lines 62–115): score each
set, collect the surviving rows, Benjamini–Hochberg adjust their p-values,
multiply each adjusted value by 2 (line 101), and assemble the final rows
with `enrichment_ratio = overlap / expected`.
The source accumulates rows from a rayon parallel loop through a mutex, so
their order is unspecified; the model fixes the input order. -/
def get_ora (interest_list reference : List String) (gmt : List Item)
    (config : ORAConfig) : List ORAResult :=
  let partials := gmt.filterMap (ora_row interest_list reference config)
  let p_vals := partials.map (fun x => x.p)
  let fdrs := (bh_adjust p_vals).map (fun x => x * 2)
  (partials.zip fdrs).map (fun pr =>
    ⟨pr.1.set, pr.1.p, pr.2, pr.1.overlap, pr.1.expected,
      (pr.1.overlap : ℚ) / pr.1.expected⟩)

/-- GSEA configuration, from `methods/gsea.rs` (`GSEAConfig`). The exponent
field `p` is an `f64` in the source ("Power to raise each rank during the
enrichment scoring"); it is modelled as a natural exponent, which covers the
default `1.0` and agrees with `powf` on integer powers of rationals. -/
structure GSEAConfig where
  p : ℕ
  min_overlap : ℤ
  max_overlap : ℤ
  permutations : ℤ
  deriving DecidableEq, Repr

/-- Default GSEA configuration (`GSEAConfig::default`): p = 1.0,
min_overlap = 15, max_overlap = 500, permutations = 1000. -/
def GSEAConfig.default : GSEAConfig := ⟨1, 15, 500, 1000⟩

/-- One entry of the ranked list (`RankListItem` in `methods/gsea.rs`). -/
structure RankListItem where
  analyte : String
  rank : ℚ
  deriving DecidableEq, Repr

/-- Per-set GSEA row before FDR (`PartialGSEAResult` in `methods/gsea.rs`). -/
structure PreGSEAResult where
  set : String
  p : ℚ
  es : ℚ
  nes : ℚ
  leading_edge : ℤ
  running_sum : List ℚ
  nes_iter : List ℚ
  deriving DecidableEq, Repr

/-- Final GSEA row (`GSEAResult` in `methods/gsea.rs`). -/
structure GSEAResult where
  set : String
  p : ℚ
  fdr : ℚ
  es : ℚ
  nes : ℚ
  leading_edge : ℤ
  running_sum : List ℚ
  deriving DecidableEq, Repr

/-- Loop state of `enrichment_score` (`methods/gsea.rs` lines 249–254):
running extremum, hit counters and running sums. -/
structure ESState where
  max_score : ℚ
  hits : ℤ
  max_hits : ℤ
  sum_hits : ℚ
  sum_miss : ℚ
  running_sum : List ℚ
  deriving DecidableEq, Repr

/-- One iteration `i` of the `enrichment_score` walk (`methods/gsea.rs`
lines 267–286): accumulate the hit weight or the miss count, compute the
step score `sum_hits * inv_nr - sum_miss * inverse_size_dif`, record it in
the running sum (real run only), and update the extremum if the step score
deviates further from zero. Out-of-range indices (never reached: `order` is
a permutation of `0..n`) read default values instead of panicking. -/
def es_step (analytes : List Bool) (ranks : List ℚ) (order : List ℕ)
    (inv_nr inverse_size_dif : ℚ) (is_perm : Bool) (s : ESState) (i : ℕ) : ESState :=
  let hit := analytes.getD (order.getD i 0) false
  let s1 := if hit then { s with sum_hits := s.sum_hits + ranks.getD i 0, hits := s.hits + 1 }
            else { s with sum_miss := s.sum_miss + 1 }
  let es := s1.sum_hits * inv_nr - s1.sum_miss * inverse_size_dif
  let s2 := if is_perm then s1 else { s1 with running_sum := s1.running_sum ++ [es] }
  if |es| > |s.max_score| then { s2 with max_score := es, max_hits := s1.hits } else s2

/-- The permutation-run normaliser of `enrichment_score` (lines 255–266):
the sum of the weights sitting at the permuted hit positions. -/
def perm_n_r (analytes : List Bool) (ranks : List ℚ) (order : List ℕ) : ℚ :=
  ((List.range analytes.length).map (fun i =>
    if analytes.getD (order.getD i 0) false then ranks.getD i 0 else 0)).sum

/-- The `enrichment_score` walk of `methods/gsea.rs` (lines 241–296).
Returns `(max_score, leading_edge, running_sum)`; for a permutation run the
normaliser `1 / N_r` is re-derived from the permuted hit positions and the
running sum is not recorded. Where the source would divide by zero
(`temp_n = 0`), the model yields `0` instead of `inf`. -/
def enrichment_score (analytes : List Bool) (ranks : List ℚ) (order : List ℕ)
    (inverse_size_dif inverse_nr : ℚ) (is_perm : Bool) : ℚ × ℤ × List ℚ :=
  let inv_nr := if is_perm then 1 / perm_n_r analytes ranks order else inverse_nr
  let final := (List.range analytes.length).foldl
    (es_step analytes ranks order inv_nr inverse_size_dif is_perm) ⟨0, 0, 0, 0, 0, []⟩
  (final.max_score,
   if final.max_score > 0 then final.max_hits
   else (final.running_sum.length : ℤ) - final.max_hits,
   final.running_sum)

/-- The deduplicated member set of an analyte set (`AHashSet::from_iter` over
`item.parts`, line 117), as a duplicate-free list. -/
def analyte_set_of (item : Item) : List String := item.parts.dedup

/-- The overlap count of `analyte_set_p` (lines 121–128): the number of rank
list positions whose analyte belongs to the set. -/
def set_overlap (analytes : List String) (item : Item) : ℤ :=
  (((List.range analytes.length).filter (fun j =>
    (analyte_set_of item).contains (analytes.getD j ""))).length : ℤ)

/-- The weighted normaliser `N_r` of `analyte_set_p` (lines 118–128): the sum
of `|rank|^p` over the hit positions. -/
def gsea_n_r (analytes : List String) (ranks : List ℚ) (item : Item) (p : ℕ) : ℚ :=
  ((List.range analytes.length).map (fun j =>
    if (analyte_set_of item).contains (analytes.getD j "") then |ranks.getD j 0| ^ p
    else 0)).sum

/-- The hit indicator vector of `analyte_set_p` (line 143). -/
def has_analyte_vec (analytes : List String) (item : Item) : List Bool :=
  analytes.map (fun x => (analyte_set_of item).contains x)

/-- The weight vector of `analyte_set_p` (lines 145–150): `|rank|^p`, with
the exponentiation skipped when `p = 1`. -/
def weighted_ranks (ranks : List ℚ) (p : ℕ) : List ℚ :=
  if p ≠ 1 then ranks.map (fun x => |x| ^ p) else ranks.map (fun x => |x|)

/-- The per-set p-value computation of `analyte_set_p` (lines 175–191):
restrict the permutation extrema to the side of `real_es` (nonnegative side
when `real_es ≥ 0`, strictly negative side otherwise), and take the fraction
whose absolute value meets or exceeds `|real_es|`; `0` when the side is
empty. -/
def gsea_pvalue (real_es : ℚ) (es_iter : List ℚ) : ℚ :=
  let side := if real_es ≥ 0 then es_iter.filter (fun x => decide (x ≥ 0))
              else es_iter.filter (fun x => decide (x < 0))
  let tot := side.length
  if tot ≠ 0 then ((side.filter (fun x => decide (|x| ≥ |real_es|))).length : ℚ) / (tot : ℚ)
  else 0

/-- The inverse miss normaliser of `analyte_set_p` (line 119):
`1 / (n - |analyte_set|)`. The subtraction is a Rust `usize` subtraction
(modelled as truncated ℕ subtraction); a set with more distinct members than
the rank list is outside the scope of every claim. Yields `0` where the
source divides by zero. -/
def gsea_inverse_size_dif (analytes : List String) (item : Item) : ℚ :=
  1 / ((analytes.length - (analyte_set_of item).length : ℕ) : ℚ)

/-- Per-set GSEA scoring, `analyte_set_p` of `methods/gsea.rs` (lines
108–238). A set whose overlap falls outside `[min_overlap, max_overlap]`
yields the terminal row `(p = 1, nes = 0, es = 0, leading_edge = 0,
running_sum = [], nes_iter = [])`; otherwise the real enrichment walk, the
permutation extrema, the side p-value, and the ε-guarded up/down
normalisation are computed. The float literal `0.000001` is the rational
`1/1000000`. -/
def analyte_set_p (analytes : List String) (ranks : List ℚ) (item : Item) (p : ℕ)
    (permutations_vec : List (List ℕ)) (config : GSEAConfig) : PreGSEAResult :=
  let n_r := gsea_n_r analytes ranks item p
  let inverse_size_dif := gsea_inverse_size_dif analytes item
  let overlap := set_overlap analytes item
  if overlap < config.min_overlap ∨ overlap > config.max_overlap then
    ⟨item.id, 1, 0, 0, 0, [], []⟩
  else
    let inverse_nr := 1 / n_r
    let original_order := List.range analytes.length
    let has_analyte := has_analyte_vec analytes item
    let new_ranks := weighted_ranks ranks p
    let real := enrichment_score has_analyte new_ranks original_order inverse_size_dif
      inverse_nr false
    let real_es := real.1
    let max_hits := real.2.1
    let running_sum := real.2.2
    let es_iter := permutations_vec.map (fun ord =>
      (enrichment_score has_analyte new_ranks ord inverse_size_dif inverse_nr true).1)
    let pval := gsea_pvalue real_es es_iter
    let up := es_iter.filter (fun x => decide (x ≥ 0))
    let down := es_iter.filter (fun x => decide (x ≤ 0))
    let up_avg := if up = [] then 1 / 1000000
                  else up.sum / ((up.length : ℚ) + 1 / 1000000) + 1 / 1000000
    let down_avg := if down = [] then -(1 / 1000000)
                    else down.sum / ((down.length : ℚ) - 1 / 1000000) - 1 / 1000000
    let nes_es := up.map (fun x => x / up_avg) ++ down.map (fun x => -x / down_avg)
    let norm_es := if real_es ≥ 0 then (if up = [] then 0 else real_es / up_avg)
                   else if down = [] then 0 else -real_es / down_avg
    ⟨item.id, pval, real_es, norm_es, max_hits, running_sum, nes_es⟩

/-- The descending stable sort of the rank list (`gsea`, line 315). -/
def rank_sort (analyte_list : List RankListItem) : List RankListItem :=
  stable_sort (fun a b => decide (b.rank ≤ a.rank)) analyte_list

/-- The GSEA engine `gsea` of `methods/gsea.rs` (lines 308–392): sort the
rank list descending, score every analyte set — passing the literal
exponent `1.0` (line 323), not `config.p` — then compute each row's pooled
FDR from the concatenated normalised permutation scores (null distribution)
and the observed NES values. The permutation table is taken as an argument:
the source uses the caller-provided table, or an entropy-seeded random table
(`make_permutations`) when none is given. Float corner cases of the FDR
quotient are modelled explicitly: `0/0` (NaN) becomes `0`, `x/0` with
`x > 0` (inf) becomes `1`, and values above `1` are clamped to `1`. -/
def gsea (analyte_list : List RankListItem) (gmt : List Item) (config : GSEAConfig)
    (permutations : List (List ℕ)) : List GSEAResult :=
  let sorted := rank_sort analyte_list
  let analytes := sorted.map (fun x => x.analyte)
  let ranks := sorted.map (fun x => x.rank)
  let partial_results := gmt.map (fun analyte_set =>
    analyte_set_p analytes ranks analyte_set 1 permutations config)
  let null_distribution := (partial_results.map (fun x => x.nes_iter)).flatten
  let observed_distribution := partial_results.map (fun x => x.nes)
  let positive_top_side := null_distribution.filter (fun x => decide (x ≥ 0))
  let negative_top_side := null_distribution.filter (fun x => decide (x < 0))
  let positive_bottom_side := observed_distribution.filter (fun x => decide (x ≥ 0))
  let negative_bottom_side := observed_distribution.filter (fun x => decide (x < 0))
  partial_results.map (fun item =>
    let nes := item.nes
    let top_side := if nes > 0 then positive_top_side else negative_top_side
    let top_len : ℚ := if top_side = [] then 1 / 1000000 else (top_side.length : ℚ)
    let nes_abs := |nes|
    let top_val : ℚ := ((top_side.filter (fun x => decide (|x| ≥ nes_abs))).length : ℚ)
    let bottom_side := if nes ≥ 0 then positive_bottom_side else negative_bottom_side
    let bottom_len : ℚ := if bottom_side = [] then 1 / 1000000 else (bottom_side.length : ℚ)
    let bottom_val : ℚ := ((bottom_side.filter (fun x => decide (|x| ≥ nes_abs))).length : ℚ)
    let num := top_val * bottom_len
    let den := bottom_val * top_len
    let fdr : ℚ := if den = 0 then (if num = 0 then 0 else 1) else min 1 (num / den)
    ⟨item.set, item.p, fdr, item.es, item.nes, item.leading_edge, item.running_sum⟩)

/-- Weight vector as the specification words it: `weights[i] = |scores[i]|^p`
with `p` the configured exponent (`GSEAConfig.p`). Comparison definition for
the exponent claim. -/
def spec_weights (config : GSEAConfig) (scores : List ℚ) : List ℚ :=
  scores.map (fun x => |x| ^ config.p)

/-- Accumulated hit weight of the enrichment walk through position `i`
(inclusive). -/
def hit_weight_through (has : List Bool) (w : List ℚ) (i : ℕ) : ℚ :=
  (((List.range (i + 1)).filter (fun j => has.getD j false)).map (fun j => w.getD j 0)).sum

/-- Accumulated miss count of the enrichment walk through position `i`
(inclusive). -/
def miss_count_through (has : List Bool) (i : ℕ) : ℕ :=
  ((List.range (i + 1)).filter (fun j => ! has.getD j false)).length

/-- Running sum as the specification words it: at step `i` the score is the
accumulated hit weight divided by `N_r` minus the accumulated miss count
divided by the given denominator. Comparison definition for the running-sum
claim. -/
def claimed_running_sum (has : List Bool) (w : List ℚ) (n_r denom : ℚ) : List ℚ :=
  (List.range has.length).map (fun i =>
    hit_weight_through has w i / n_r - (miss_count_through has i : ℚ) / denom)

/-- Per-set p-value as the specification words it: the fraction of
same-sign permutation extrema (same sign as ES, with zero on the
nonnegative side) whose absolute value meets or exceeds `|ES|`, and `0`
when the same-sign side is empty. Comparison definition for the p-value
claim. -/
def spec_gsea_p (es : ℚ) (extrema : List ℚ) : ℚ :=
  if extrema.countP (fun x => decide ((0 ≤ x) ↔ (0 ≤ es))) = 0 then 0
  else (extrema.countP (fun x => decide (((0 ≤ x) ↔ (0 ≤ es)) ∧ |es| ≤ |x|)) : ℚ) /
    (extrema.countP (fun x => decide ((0 ≤ x) ↔ (0 ≤ es))) : ℚ)

/-- Normalisation mode selector of `methods/multiomics.rs`
(`NormalizationMethod`). -/
inductive NormalizationMethod where
  | MedianRank
  | MedianValue
  | MeanValue
  | NoNorm
  deriving DecidableEq, Repr

/-- List normalisation, `normalize` of `methods/multiomics.rs` (lines
241–298): identity for `None` (here `NoNorm`); `MedianRank` sorts ascending
and maps index `i` to `(i - m/2) / (m/2)`; `MedianValue` sorts descending
and maps `x` to `(x - min)/median + min/median` with `median` the
middle-position score minus the minimum; `MeanValue` sorts descending and
maps `x` to `(x - min)/mean + min/mean` with
`mean = (Σ (x - min))/m - min/m`. An empty input list (whose `last()` the
source unwraps) is modelled with default entry `("", 0)`. Named
`normalize_ranks` to avoid clashing with a library name. -/
def normalize_ranks (list : List RankListItem) (method : NormalizationMethod) :
    List RankListItem :=
  match method with
  | NormalizationMethod.NoNorm => list
  | NormalizationMethod.MedianRank =>
    let sorted := stable_sort (fun a b => decide (a.rank ≤ b.rank)) list
    let median : ℚ := (list.length : ℚ) / 2
    sorted.enum.map (fun iv => ⟨iv.2.analyte, ((iv.1 : ℚ) - median) / median⟩)
  | NormalizationMethod.MedianValue =>
    let sorted := stable_sort (fun a b => decide (b.rank ≤ a.rank)) list
    let min := (sorted.getLast?.getD ⟨"", 0⟩).rank
    let median := (sorted.getD (sorted.length / 2) ⟨"", 0⟩).rank - min
    let shift := min / median
    sorted.map (fun item => ⟨item.analyte, (item.rank - min) / median + shift⟩)
  | NormalizationMethod.MeanValue =>
    let sorted := stable_sort (fun a b => decide (b.rank ≤ a.rank)) list
    let min := (sorted.getLast?.getD ⟨"", 0⟩).rank
    let mean := (sorted.map (fun x => x.rank - min)).sum / (sorted.length : ℚ) -
      min / (sorted.length : ℚ)
    let shift := min / mean
    sorted.map (fun item => ⟨item.analyte, (item.rank - min) / mean + shift⟩)

/-- One aggregation step of `max_combine` (lines 192–202): a new analyte is
inserted with its rank; for a seen analyte the stored value is replaced by
`item.rank` when `|item.rank|` exceeds the RAW stored value (the source
compares `item.rank.abs() > *val`, not against the stored value's absolute
value). The `AHashMap` is modelled as an association list in insertion
order. -/
def max_update (batches : List (String × ℚ)) (item : RankListItem) :
    List (String × ℚ) :=
  if (batches.lookup item.analyte).isSome then
    batches.map (fun kv => if kv.1 = item.analyte then
      (kv.1, if |item.rank| > kv.2 then item.rank else kv.2) else kv)
  else batches ++ [(item.analyte, item.rank)]

/-- The Max list-merge, `max_combine` of `methods/multiomics.rs` (lines
183–211): normalise each list, fold all entries through the aggregation
map, and emit one `RankListItem` per analyte (the source iterates hash-map
keys in unspecified order; the model uses insertion order). -/
def max_combine (lists : List (List RankListItem))
    (normalization_method : NormalizationMethod) : List RankListItem :=
  let normalized_lists := lists.map (fun l => normalize_ranks l normalization_method)
  let batches := normalized_lists.foldl (fun acc l => l.foldl max_update acc) []
  batches.map (fun kv => ⟨kv.1, kv.2⟩)

/-- Chi-squared probability density with `df` degrees of freedom (the
`statrs` `ChiSquared::pdf` called by `methods/multiomics.rs`):
`x^(df/2 - 1) exp(-x/2) / (2^(df/2) Γ(df/2))`. The transcendental float
functions of the source are modelled by their exact real counterparts. -/
noncomputable def chi_squared_pdf (df x : ℝ) : ℝ :=
  x ^ (df / 2 - 1) * Real.exp (-x / 2) / (2 ^ (df / 2) * Real.Gamma (df / 2))

/-- Meta-p Fisher combinator, `fisher` of `methods/multiomics.rs` (lines
350–355): the chi-squared DENSITY with `2^(k-1)` degrees of freedom
evaluated at the statistic `-2 Σ ln p_i` (not a tail probability). -/
noncomputable def fisher (vals : List ℝ) : ℝ :=
  chi_squared_pdf ((2 : ℝ) ^ ((vals.length : ℤ) - 1)) (-2 * (vals.map Real.log).sum)

/-- Meta-p Stouffer combinator, `stouffer` of `methods/multiomics.rs`
(lines 339–343): `cdf((Σ Φ⁻¹(p_i)) / √k)`, with the standard normal CDF and
quantile of the `statrs` `Normal(0,1)` taken as parameters. -/
noncomputable def stouffer (cdf inverse_cdf : ℝ → ℝ) (vals : List ℝ) : ℝ :=
  cdf ((vals.map inverse_cdf).sum / Real.sqrt (vals.length : ℝ))

/-- NTA method selector (`NTAMethod` in `methods/nta.rs`). -/
inductive NTAMethod where
  | Prioritize (size : ℕ)
  | Expand (size : ℕ)
  deriving DecidableEq, Repr

/-- The requested neighborhood size of an NTA method. -/
def nta_size : NTAMethod → ℕ
  | NTAMethod.Prioritize size => size
  | NTAMethod.Expand size => size

/-- NTA result record (`NTAResult` in `methods/nta.rs`). -/
structure NTAResult where
  neighborhood : List String
  scores : List ℚ
  candidates : List String
  deriving DecidableEq, Repr

/-- The node indexing of `process_nta` (lines 119–125): all node names of
the edge list, deduplicated. The source enumerates an `AHashSet` in
unspecified order; the model uses first-occurrence order. -/
def nta_nodes (edge_list : List (String × String)) : List String :=
  ((edge_list.map (fun e => [e.1, e.2])).flatten).dedup

/-- The adjacency matrix of `process_nta` (lines 126–132): entry 1 whenever
some edge joins the two nodes (in either direction), else 0. -/
def adjacency (edge_list : List (String × String)) (nodes : List String)
    (i j : Fin nodes.length) : ℚ :=
  if edge_list.any (fun e => decide ((e.1 = nodes.get i ∧ e.2 = nodes.get j) ∨
      (e.2 = nodes.get i ∧ e.1 = nodes.get j))) then 1 else 0

/-- Column sum of the adjacency matrix (`adj_matrix.sum_axis(Axis(0))`,
line 171): the degree of node `j`. -/
def degree (n : ℕ) (A : Fin n → Fin n → ℚ) (j : Fin n) : ℚ := ∑ i, A i j

/-- The column-normalised walk matrix `W = A / degree(column)` of
`random_walk_probability` (lines 171–175). A zero-degree column would
divide by zero (`NaN` in the source, `0` in `ℚ`); every node of an NTA
graph occurs in an edge, so every degree is positive. -/
def walk_matrix (n : ℕ) (A : Fin n → Fin n → ℚ) (i j : Fin n) : ℚ :=
  A i j / degree n A j

/-- The restart vector `p0` of `random_walk_probability` (lines 176–179):
`1 / |seed_indices|` at the seed indices, `0` elsewhere (a duplicated seed
index counts once in the vector, but `num_nodes` counts the list length,
exactly as the source does). -/
def seed_p0 (n : ℕ) (seed_indices : List (Fin n)) (i : Fin n) : ℚ :=
  if i ∈ seed_indices then 1 / (seed_indices.length : ℚ) else 0

/-- The seed index list of `process_nta` (lines 134–138). The source
unwraps the lookup and panics on a seed absent from the graph; the model
drops such seeds (the claims assume all seeds occur in the edge list). -/
def seed_indices (nodes : List String) (seeds : List String) : List (Fin nodes.length) :=
  seeds.filterMap (fun s =>
    if h : s ∈ nodes then some ⟨nodes.indexOf s, List.indexOf_lt_length.mpr h⟩ else none)

/-- One iteration `p ↦ (1 - r) · W · p + r · p0` of the random walk
(lines 181, 189). -/
def walk_step (n : ℕ) (W : Fin n → Fin n → ℚ) (r : ℚ) (p0 p : Fin n → ℚ)
    (i : Fin n) : ℚ :=
  (1 - r) * (∑ j, W i j * p j) + r * p0 i

/-- The `L1` distance `Σ |p i - q i|` used by the loop guard (lines
182–187). -/
def l1_dist (n : ℕ) (p q : Fin n → ℚ) : ℚ := ∑ i, |p i - q i|

/-- The iteration step of `random_walk_probability` with the walk matrix
derived from the adjacency matrix. -/
def nta_step (n : ℕ) (A : Fin n → Fin n → ℚ) (p0 : Fin n → ℚ) (r : ℚ)
    (p : Fin n → ℚ) : Fin n → ℚ :=
  fun i => walk_step n (walk_matrix n A) r p0 p i

/-- The `while` loop of `random_walk_probability` (lines 180–191), with
explicit fuel: the state is the pair `(pt, pt1)` with `pt1 = step pt`; when
`Σ |pt1 - pt| ≤ tolerance` the loop stops, otherwise it advances. `none`
means the fuel ran out before the guard was satisfied (the source loops
without bound). -/
def walk_loop (n : ℕ) (step : (Fin n → ℚ) → (Fin n → ℚ)) (tol : ℚ) :
    ℕ → (Fin n → ℚ) → (Fin n → ℚ) → Option ((Fin n → ℚ) × (Fin n → ℚ))
  | 0, pt, pt1 => if l1_dist n pt1 pt ≤ tol then some (pt, pt1) else none
  | fuel + 1, pt, pt1 =>
    if l1_dist n pt1 pt ≤ tol then some (pt, pt1)
    else walk_loop n step tol fuel pt1 (step pt1)

/-- The random walk with restart, `random_walk_probability` of
`methods/nta.rs` (lines 164–192): iterate from `p0` until the `L1` change
is within tolerance, returning the final vector. -/
def random_walk_probability (n : ℕ) (A : Fin n → Fin n → ℚ)
    (seed_idx : List (Fin n)) (r tol : ℚ) (fuel : ℕ) : Option (Fin n → ℚ) :=
  let p0 := seed_p0 n seed_idx
  (walk_loop n (nta_step n A p0 r) tol fuel p0 (nta_step n A p0 r p0)).map
    (fun pr => pr.2)

/-- Graph construction, walk, and descending sort of `process_nta`
(lines 117–150): returns the `(node, probability)` pairs sorted by
probability descending. -/
def process_nta (edge_list : List (String × String)) (seeds : List String)
    (r tol : ℚ) (fuel : ℕ) : Option (List (String × ℚ)) :=
  let nodes := nta_nodes edge_list
  (random_walk_probability nodes.length (adjacency edge_list nodes)
      (seed_indices nodes seeds) r tol fuel).map (fun res =>
    stable_sort (fun a b => decide (b.2 ≤ a.2))
      ((List.finRange nodes.length).map (fun i => (nodes.get i, res i))))

/-- The NTA engine `get_nta` of `methods/nta.rs` (lines 54–106):
`Prioritize(size)` keeps the top `size` seed nodes (candidates are those
pushed while the neighborhood was still below `size`, i.e. the first
`size - 1`); `Expand(size)` keeps the top `size` non-seed nodes with no
candidates. -/
def get_nta (edge_list : List (String × String)) (seeds : List String)
    (r tol : ℚ) (method : NTAMethod) (fuel : ℕ) : Option NTAResult :=
  (process_nta edge_list seeds r tol fuel).map (fun nta_res =>
    match method with
    | NTAMethod.Prioritize size =>
      let only_seeds := nta_res.filter (fun x => seeds.contains x.1)
      let sel := only_seeds.take size
      ⟨sel.map (fun x => x.1), sel.map (fun x => x.2),
        (sel.take (size - 1)).map (fun x => x.1)⟩
    | NTAMethod.Expand size =>
      let non_seeds := nta_res.filter (fun x => ! seeds.contains x.1)
      let sel := non_seeds.take size
      ⟨sel.map (fun x => x.1), sel.map (fun x => x.2), []⟩)

/-- The adjusted vector has the length of the input vector. -/
lemma bh_adjust_length (ps : List ℚ) : (bh_adjust ps).length = ps.length := by
  simp [bh_adjust]

/-- The set ids of the surviving partial rows are the ids of the input sets
that pass both the size filter and the overlap threshold, in order. -/
lemma filterMap_ora_row_sets (interest_list reference : List String)
    (config : ORAConfig) (gmt : List Item) :
    (gmt.filterMap (ora_row interest_list reference config)).map (fun r => r.set) =
      (gmt.filter (fun i => ora_size_pass config i &&
        decide (config.min_overlap ≤ ora_k interest_list i))).map (fun i => i.id) := by
  induction gmt with
  | nil => rfl
  | cons hd tl ih =>
    rw [List.filterMap_cons, List.filter_cons]
    by_cases hs : ora_size_pass config hd
    · by_cases hk : config.min_overlap ≤ ora_k interest_list hd
      · simp [ora_row, hs, hk, ih]
      · simp [ora_row, hs, hk, ih]
    · simp [ora_row, hs, ih]

/-- C1 (counterexample): the claim says every input set yields exactly one
positionally aligned `ORAResult`, with a set below `min_set_size` still
emitted with `p = 1` and `overlap = 0`. In the code an undersized set yields
no row at all: one input set, zero output rows. -/
theorem get_ora_drops_undersized_set :
    get_ora ["a"] ["a"] [⟨"s", "", ["a"]⟩] ⟨5, 5, 500⟩ = [] ∧
    ([(⟨"s", "", ["a"]⟩ : Item)] : List Item).length = 1 := by
  constructor
  · simp [get_ora, ora_row, ora_size_pass]
  · rfl

/-- C1 (amended): `get_ora` returns exactly one `ORAResult` per input set
that passes the size filter and has interest overlap `K ≥ min_overlap`,
positionally aligned with that filtered subsequence of the input collection;
all other sets are omitted from the output. -/
theorem get_ora_aligned_with_passing_sets (interest_list reference : List String)
    (gmt : List Item) (config : ORAConfig) :
    (get_ora interest_list reference gmt config).map (fun r => r.set) =
      (gmt.filter (fun i => ora_size_pass config i &&
        decide (config.min_overlap ≤ ora_k interest_list i))).map (fun i => i.id) := by
  rw [← filterMap_ora_row_sets interest_list reference config gmt]
  unfold get_ora
  have hlen : (gmt.filterMap (ora_row interest_list reference config)).length ≤
      ((bh_adjust ((gmt.filterMap (ora_row interest_list reference config)).map
        (fun x => x.p))).map (fun x => x * 2)).length := by
    rw [List.length_map, bh_adjust_length, List.length_map]
  calc ((((gmt.filterMap (ora_row interest_list reference config)).zip
        ((bh_adjust ((gmt.filterMap (ora_row interest_list reference config)).map
          (fun x => x.p))).map (fun x => x * 2))).map (fun pr =>
            (⟨pr.1.set, pr.1.p, pr.2, pr.1.overlap, pr.1.expected,
              (pr.1.overlap : ℚ) / pr.1.expected⟩ : ORAResult))).map (fun r => r.set))
      = (((gmt.filterMap (ora_row interest_list reference config)).zip
          ((bh_adjust ((gmt.filterMap (ora_row interest_list reference config)).map
            (fun x => x.p))).map (fun x => x * 2))).map Prod.fst).map (fun r => r.set) := by
        simp
    _ = _ := by rw [List.map_fst_zip _ _ hlen]

/-- C3: the `fdr` field is twice the Benjamini–Hochberg adjusted value (the
`* 2.0` at line 101 of `methods/ora.rs`), not the adjusted value itself. On
this one-set run the emitted p-vector is `[1]`, its BH adjustment is `[1]`,
but the reported fdr vector is `[2]`. -/
theorem get_ora_fdr_is_twice_bh :
    (get_ora ["a", "b", "c", "d", "e"] ["a", "b", "c", "d", "e"]
      [⟨"s", "", ["a"]⟩] ⟨1, 1, 500⟩).map (fun r => r.fdr) = [2] ∧
    (get_ora ["a", "b", "c", "d", "e"] ["a", "b", "c", "d", "e"]
      [⟨"s", "", ["a"]⟩] ⟨1, 1, 500⟩).map (fun r => r.p) = [1] ∧
    bh_adjust [1] = [1] := by
  have h1 : List.filterMap (ora_row ["a", "b", "c", "d", "e"] ["a", "b", "c", "d", "e"]
      ⟨1, 1, 500⟩) [⟨"s", "", ["a"]⟩] = [⟨"s", 1, 1, 1⟩] := by
    norm_num [List.filterMap_cons, ora_row, ora_size_pass, ora_k, ora_j, ora_p, hyper_sf,
      hyper_cdf, hyper_pmf, i64_as_u64, Finset.sum_range_succ, Int.toNat_ofNat, List.filter,
      List.contains, Nat.choose_eq_zero_of_lt, Nat.choose]
  have h2 : bh_adjust [1] = [1] := by
    norm_num [bh_adjust, bh_scan, stable_sort, stable_insert, List.enum, List.range_succ]
  refine ⟨?_, ?_, h2⟩ <;> simp [get_ora, h1, h2]

/-- Nonnegativity of the hypergeometric mass function. -/
lemma hyper_pmf_nonneg (m j n i : ℕ) : 0 ≤ hyper_pmf m j n i := by
  unfold hyper_pmf
  split
  · positivity
  · exact le_refl 0

/-- For `j ≤ m`, `n ≤ m` and `n ≤ k` the hypergeometric CDF at `k` is `1`
(Vandermonde's identity: the masses over `0..n` sum to `C(m,n)/C(m,n)`). -/
lemma hyper_cdf_eq_one (m j n k : ℕ) (hj : j ≤ m) (hn : n ≤ m) (hk : n ≤ k) :
    hyper_cdf m j n k = 1 := by
  unfold hyper_cdf
  have hsub : Finset.range (n + 1) ⊆ Finset.range (k + 1) := by
    intro x hx
    simp only [Finset.mem_range] at hx ⊢
    omega
  rw [← Finset.sum_subset hsub (by
    intro x _ hxn
    simp only [Finset.mem_range] at hxn
    unfold hyper_pmf
    rw [if_neg (by omega)])]
  have hcongr : ∀ i ∈ Finset.range (n + 1), hyper_pmf m j n i =
      ((j.choose i * (m - j).choose (n - i) : ℕ) : ℚ) / ((m.choose n : ℕ) : ℚ) := by
    intro i hi
    simp only [Finset.mem_range] at hi
    unfold hyper_pmf
    rw [if_pos (by omega)]
  rw [Finset.sum_congr rfl hcongr, ← Finset.sum_div]
  have hv : ∑ i ∈ Finset.range (n + 1), (j.choose i * (m - j).choose (n - i)) = m.choose n := by
    have hva := Nat.add_choose_eq j (m - j) n
    rw [Nat.add_sub_cancel' hj] at hva
    rw [hva, Finset.Nat.sum_antidiagonal_eq_sum_range_succ_mk]
  rw [← Nat.cast_sum, hv]
  exact div_self (by
    have := Nat.choose_pos hn
    positivity)

/-- C4: at `K = 0` the cast `(K - 1) as u64` wraps to `2^64 - 1`, so
`ora_p(M, J, N, 0)` is the survival function beyond the whole support and
evaluates to `0`, not `1`; since `ora_p(5, 2, 2, 1) = 7/10 > 0`, the
claimed monotone non-increase in `K` also fails at `K = 0`. -/
theorem ora_p_wraps_at_zero : ora_p 5 2 2 0 = 0 ∧ ora_p 5 2 2 1 = 7 / 10 := by
  constructor
  · unfold ora_p hyper_sf
    have h5 : i64_as_u64 5 = 5 := by rfl
    have h2 : i64_as_u64 2 = 2 := by rfl
    have hm1 : i64_as_u64 (0 - 1) = 2 ^ 64 - 1 := by rfl
    rw [h5, h2, hm1, hyper_cdf_eq_one 5 2 2 (2 ^ 64 - 1) (by norm_num) (by norm_num)
      (by norm_num)]
    norm_num
  · norm_num [ora_p, hyper_sf, hyper_cdf, hyper_pmf, i64_as_u64, Finset.sum_range_succ,
      Int.toNat_ofNat, Nat.choose_eq_zero_of_lt, Nat.choose]

/-- C2: `gsea` passes the literal exponent `1.0` to `analyte_set_p`
(line 323), ignoring `config.p` entirely: the output is independent of the
configured exponent, and on a run configured with exponent 2 the emitted
running sum is the exponent-1 one (`[2/3, 1, 0]`, from weights `[2, 1, 1]`),
not the `[4/5, 1, 0]` that the claimed weights `[4, 1, 1]` would give. -/
theorem gsea_ignores_configured_exponent :
    (∀ (l : List RankListItem) (g : List Item) (e₁ e₂ : ℕ) (mo Mo pm : ℤ)
      (perms : List (List ℕ)),
      gsea l g ⟨e₁, mo, Mo, pm⟩ perms = gsea l g ⟨e₂, mo, Mo, pm⟩ perms) ∧
    (gsea [⟨"A", 2⟩, ⟨"B", 1⟩, ⟨"C", 1⟩] [⟨"S", "", ["A", "B"]⟩] ⟨2, 1, 500, 0⟩ []).map
      (fun r => r.running_sum) = [[2/3, 1, 0]] ∧
    spec_weights ⟨2, 1, 500, 0⟩ [2, 1, 1] = [4, 1, 1] ∧
    weighted_ranks [2, 1, 1] 1 = [2, 1, 1] := by
  refine ⟨fun l g e₁ e₂ mo Mo pm perms => rfl, ?_, ?_, by decide⟩
  · have hsort : rank_sort [⟨"A", 2⟩, ⟨"B", 1⟩, ⟨"C", 1⟩] =
        [⟨"A", 2⟩, ⟨"B", 1⟩, ⟨"C", 1⟩] := by decide
    have hasp : analyte_set_p ["A", "B", "C"] [2, 1, 1] ⟨"S", "", ["A", "B"]⟩ 1 []
        ⟨2, 1, 500, 0⟩ = ⟨"S", 0, 1, 0, 2, [2/3, 1, 0], []⟩ := by
      have hset : analyte_set_of ⟨"S", "", ["A", "B"]⟩ = ["A", "B"] := by decide
      have hhas : has_analyte_vec ["A", "B", "C"] ⟨"S", "", ["A", "B"]⟩ =
          [true, true, false] := by decide
      have hov : set_overlap ["A", "B", "C"] ⟨"S", "", ["A", "B"]⟩ = 2 := by decide
      have hw : weighted_ranks [2, 1, 1] 1 = [2, 1, 1] := by decide
      have hisd : gsea_inverse_size_dif ["A", "B", "C"] ⟨"S", "", ["A", "B"]⟩ = 1 := by
        norm_num [gsea_inverse_size_dif, hset]
      have hnr : gsea_n_r ["A", "B", "C"] [2, 1, 1] ⟨"S", "", ["A", "B"]⟩ 1 = 3 := by
        norm_num +decide [gsea_n_r, List.range_succ, hset]
      have hes : enrichment_score [true, true, false] [2, 1, 1] (List.range 3) 1
          ((3 : ℚ)⁻¹) false = (1, 2, [2/3, 1, 0]) := by
        norm_num [enrichment_score, es_step, perm_n_r, List.range_succ, List.getD,
          abs_eq_max_neg, max_def]
      simp [analyte_set_p, hov, hisd, hnr, hhas, hw, hes, gsea_pvalue]
    simp [gsea, hsort, hasp]
  · norm_num [spec_weights, abs_eq_max_neg, max_def]

/-- Inserting one element grows the length by one. -/
lemma stable_insert_length (le : α → α → Bool) (x : α) (l : List α) :
    (stable_insert le x l).length = l.length + 1 := by
  induction l with
  | nil => rfl
  | cons y ys ih =>
    unfold stable_insert
    split_ifs <;> simp [ih]

/-- Sorting preserves the length. -/
lemma stable_sort_length (le : α → α → Bool) (l : List α) :
    (stable_sort le l).length = l.length := by
  suffices h : ∀ acc : List α,
      (l.foldl (fun acc x => stable_insert le x acc) acc).length = acc.length + l.length by
    simpa [stable_sort] using h []
  induction l with
  | nil => intro acc; simp
  | cons y ys ih =>
    intro acc
    simp [List.foldl_cons, ih, stable_insert_length]
    omega

/-- A real (non-permutation) walk step appends exactly one running-sum
entry. -/
lemma es_step_running_sum_length (a : List Bool) (r : List ℚ) (ord : List ℕ)
    (inv isd : ℚ) (s : ESState) (i : ℕ) :
    (es_step a r ord inv isd false s i).running_sum.length = s.running_sum.length + 1 := by
  unfold es_step
  dsimp only
  split <;> split <;> simp

/-- Folding real walk steps appends one running-sum entry per index. -/
lemma foldl_es_running_sum_length (a : List Bool) (r : List ℚ) (ord : List ℕ)
    (inv isd : ℚ) (idxs : List ℕ) (s : ESState) :
    ((idxs.foldl (es_step a r ord inv isd false) s).running_sum).length =
      s.running_sum.length + idxs.length := by
  induction idxs generalizing s with
  | nil => simp
  | cons j js ih =>
    simp [List.foldl_cons, ih, es_step_running_sum_length]
    omega

/-- The real enrichment walk records one running-sum entry per rank-list
position. -/
lemma enrichment_score_running_sum_length (a : List Bool) (r : List ℚ) (ord : List ℕ)
    (isd inv : ℚ) :
    ((enrichment_score a r ord isd inv false).2.2).length = a.length := by
  unfold enrichment_score
  simp [foldl_es_running_sum_length]

/-- C9: for every input analyte set of a GSEA run, if its overlap with the
sorted rank list falls outside `[min_overlap, max_overlap]` the emitted row
has `p = 1`, `es = 0`, `nes = 0`, `leading_edge = 0` and an empty running
sum; otherwise the emitted running sum has exactly the rank-list length. -/
theorem gsea_overlap_filter_shape (l : List RankListItem) (gmt : List Item)
    (cfg : GSEAConfig) (perms : List (List ℕ)) (i : ℕ) (hi : i < gmt.length) :
    ((set_overlap ((rank_sort l).map (fun x => x.analyte)) (gmt.getD i ⟨"", "", []⟩) <
        cfg.min_overlap ∨
      set_overlap ((rank_sort l).map (fun x => x.analyte)) (gmt.getD i ⟨"", "", []⟩) >
        cfg.max_overlap) →
      ((gsea l gmt cfg perms).getD i ⟨"", 0, 0, 0, 0, 0, []⟩).p = 1 ∧
      ((gsea l gmt cfg perms).getD i ⟨"", 0, 0, 0, 0, 0, []⟩).es = 0 ∧
      ((gsea l gmt cfg perms).getD i ⟨"", 0, 0, 0, 0, 0, []⟩).nes = 0 ∧
      ((gsea l gmt cfg perms).getD i ⟨"", 0, 0, 0, 0, 0, []⟩).leading_edge = 0 ∧
      ((gsea l gmt cfg perms).getD i ⟨"", 0, 0, 0, 0, 0, []⟩).running_sum = []) ∧
    (¬(set_overlap ((rank_sort l).map (fun x => x.analyte)) (gmt.getD i ⟨"", "", []⟩) <
        cfg.min_overlap ∨
       set_overlap ((rank_sort l).map (fun x => x.analyte)) (gmt.getD i ⟨"", "", []⟩) >
        cfg.max_overlap) →
      ((gsea l gmt cfg perms).getD i ⟨"", 0, 0, 0, 0, 0, []⟩).running_sum.length = l.length) := by
  have hgmt : gmt.getD i ⟨"", "", []⟩ = gmt[i] := by
    rw [List.getD_eq_getElem?_getD, List.getElem?_eq_getElem hi, Option.getD_some]
  have h5 : ((gsea l gmt cfg perms).getD i ⟨"", 0, 0, 0, 0, 0, []⟩).p =
        (analyte_set_p ((rank_sort l).map (fun x => x.analyte))
          ((rank_sort l).map (fun x => x.rank)) (gmt.getD i ⟨"", "", []⟩) 1 perms cfg).p ∧
      ((gsea l gmt cfg perms).getD i ⟨"", 0, 0, 0, 0, 0, []⟩).es =
        (analyte_set_p ((rank_sort l).map (fun x => x.analyte))
          ((rank_sort l).map (fun x => x.rank)) (gmt.getD i ⟨"", "", []⟩) 1 perms cfg).es ∧
      ((gsea l gmt cfg perms).getD i ⟨"", 0, 0, 0, 0, 0, []⟩).nes =
        (analyte_set_p ((rank_sort l).map (fun x => x.analyte))
          ((rank_sort l).map (fun x => x.rank)) (gmt.getD i ⟨"", "", []⟩) 1 perms cfg).nes ∧
      ((gsea l gmt cfg perms).getD i ⟨"", 0, 0, 0, 0, 0, []⟩).leading_edge =
        (analyte_set_p ((rank_sort l).map (fun x => x.analyte))
          ((rank_sort l).map (fun x => x.rank)) (gmt.getD i ⟨"", "", []⟩) 1 perms cfg).leading_edge ∧
      ((gsea l gmt cfg perms).getD i ⟨"", 0, 0, 0, 0, 0, []⟩).running_sum =
        (analyte_set_p ((rank_sort l).map (fun x => x.analyte))
          ((rank_sort l).map (fun x => x.rank)) (gmt.getD i ⟨"", "", []⟩) 1 perms cfg).running_sum := by
    simp only [gsea]
    rw [List.getD_eq_getElem?_getD, List.getElem?_map, List.getElem?_map,
      List.getElem?_eq_getElem hi]
    simp [List.getElem?_eq_getElem hi]
  obtain ⟨hp, hes, hnes, hle, hrs⟩ := h5
  constructor
  · intro hcond
    have hterm : analyte_set_p ((rank_sort l).map (fun x => x.analyte))
        ((rank_sort l).map (fun x => x.rank)) (gmt.getD i ⟨"", "", []⟩) 1 perms cfg =
        ⟨(gmt.getD i ⟨"", "", []⟩).id, 1, 0, 0, 0, [], []⟩ := by
      unfold analyte_set_p
      rw [if_pos hcond]
    rw [hp, hes, hnes, hle, hrs, hterm]
    exact ⟨rfl, rfl, rfl, rfl, rfl⟩
  · intro hcond
    rw [hrs]
    have helse : (analyte_set_p ((rank_sort l).map (fun x => x.analyte))
        ((rank_sort l).map (fun x => x.rank)) (gmt.getD i ⟨"", "", []⟩) 1 perms cfg).running_sum =
        (enrichment_score (has_analyte_vec ((rank_sort l).map (fun x => x.analyte))
            (gmt.getD i ⟨"", "", []⟩))
          (weighted_ranks ((rank_sort l).map (fun x => x.rank)) 1)
          (List.range ((rank_sort l).map (fun x => x.analyte)).length)
          (gsea_inverse_size_dif ((rank_sort l).map (fun x => x.analyte))
            (gmt.getD i ⟨"", "", []⟩))
          (1 / gsea_n_r ((rank_sort l).map (fun x => x.analyte))
            ((rank_sort l).map (fun x => x.rank)) (gmt.getD i ⟨"", "", []⟩) 1) false).2.2 := by
      unfold analyte_set_p
      rw [if_neg hcond]
    rw [helse, enrichment_score_running_sum_length]
    simp [has_analyte_vec, stable_sort_length, rank_sort]

/-- Witness for the overlap-filter shape theorem: a concrete one-set run
whose overlap 2 falls below `min_overlap = 15`, so the emitted row is the
terminal one. -/
theorem gsea_overlap_filter_shape_witness :
    (0 : ℕ) < ([(⟨"S", "", ["A", "B"]⟩ : Item)] : List Item).length ∧
    ((gsea [⟨"A", 2⟩, ⟨"B", 1⟩, ⟨"C", 1⟩] [⟨"S", "", ["A", "B"]⟩] ⟨1, 15, 500, 0⟩ []).getD 0
      ⟨"", 0, 0, 0, 0, 0, []⟩).p = 1 ∧
    ((gsea [⟨"A", 2⟩, ⟨"B", 1⟩, ⟨"C", 1⟩] [⟨"S", "", ["A", "B"]⟩] ⟨1, 15, 500, 0⟩ []).getD 0
      ⟨"", 0, 0, 0, 0, 0, []⟩).running_sum = [] := by
  have h := gsea_overlap_filter_shape [⟨"A", 2⟩, ⟨"B", 1⟩, ⟨"C", 1⟩] [⟨"S", "", ["A", "B"]⟩]
    ⟨1, 15, 500, 0⟩ [] 0 (by norm_num)
  have hcond : set_overlap ((rank_sort [⟨"A", 2⟩, ⟨"B", 1⟩, ⟨"C", 1⟩]).map
        (fun x => x.analyte)) (([⟨"S", "", ["A", "B"]⟩] : List Item).getD 0 ⟨"", "", []⟩) <
        (⟨1, 15, 500, 0⟩ : GSEAConfig).min_overlap ∨
      set_overlap ((rank_sort [⟨"A", 2⟩, ⟨"B", 1⟩, ⟨"C", 1⟩]).map
        (fun x => x.analyte)) (([⟨"S", "", ["A", "B"]⟩] : List Item).getD 0 ⟨"", "", []⟩) >
        (⟨1, 15, 500, 0⟩ : GSEAConfig).max_overlap := by
    left
    decide
  obtain ⟨h1, -⟩ := h
  obtain ⟨hp, -, -, -, hrs⟩ := h1 hcond
  exact ⟨by norm_num, hp, hrs⟩

/-- Field-wise description of one real walk step. -/
lemma es_step_fields (has : List Bool) (w : List ℚ) (ord : List ℕ) (inv isd : ℚ)
    (s : ESState) (i : ℕ) :
    ((es_step has w ord inv isd false s i).sum_hits =
        if has.getD (ord.getD i 0) false then s.sum_hits + w.getD i 0 else s.sum_hits) ∧
    ((es_step has w ord inv isd false s i).sum_miss =
        if has.getD (ord.getD i 0) false then s.sum_miss else s.sum_miss + 1) ∧
    ((es_step has w ord inv isd false s i).running_sum =
      s.running_sum ++
        [(if has.getD (ord.getD i 0) false then s.sum_hits + w.getD i 0 else s.sum_hits) * inv -
         (if has.getD (ord.getD i 0) false then (s.sum_miss : ℚ) else s.sum_miss + 1) * isd]) := by
  unfold es_step
  dsimp only
  by_cases hb : has.getD (ord.getD i 0) false <;> split_ifs <;> simp_all

/-- State of the real enrichment walk after `n` steps: the accumulators hold
the prefix hit-weight sum and miss count, and the running sum holds the
per-step scores. -/
lemma es_walk_state (has : List Bool) (w : List ℚ) (inv isd : ℚ) (n : ℕ)
    (hn : n ≤ has.length) :
    (((List.range n).foldl (es_step has w (List.range has.length) inv isd false)
        ⟨0, 0, 0, 0, 0, []⟩).sum_hits =
      (((List.range n).filter (fun j => has.getD j false)).map (fun j => w.getD j 0)).sum) ∧
    (((List.range n).foldl (es_step has w (List.range has.length) inv isd false)
        ⟨0, 0, 0, 0, 0, []⟩).sum_miss =
      (((List.range n).filter (fun j => ! has.getD j false)).length : ℚ)) ∧
    (((List.range n).foldl (es_step has w (List.range has.length) inv isd false)
        ⟨0, 0, 0, 0, 0, []⟩).running_sum =
      (List.range n).map (fun i =>
        hit_weight_through has w i * inv - (miss_count_through has i : ℚ) * isd)) := by
  induction n with
  | zero => simp
  | succ n ih =>
    obtain ⟨ih1, ih2, ih3⟩ := ih (Nat.le_of_succ_le hn)
    have hord : (List.range has.length).getD n 0 = n := by
      rw [List.getD_eq_getElem?_getD, List.getElem?_range (by omega), Option.getD_some]
    obtain ⟨hf1, hf2, hf3⟩ := es_step_fields has w (List.range has.length) inv isd
      ((List.range n).foldl (es_step has w (List.range has.length) inv isd false)
        ⟨0, 0, 0, 0, 0, []⟩) n
    rw [List.range_succ, List.foldl_append, List.foldl_cons, List.foldl_nil]
    refine ⟨?_, ?_, ?_⟩
    · rw [hf1, hord, ih1, List.filter_append, List.map_append, List.sum_append]
      by_cases hb : has[n]?.getD false = true <;> simp [List.getD_eq_getElem?_getD, hb]
    · rw [hf2, hord, ih2, List.filter_append, List.length_append]
      by_cases hb : has[n]?.getD false = true <;> simp [List.getD_eq_getElem?_getD, hb]
    · rw [hf3, hord, ih1, ih2, ih3, List.map_append]
      congr 1
      simp only [List.map_cons, List.map_nil]
      congr 1
      have hthrough : hit_weight_through has w n =
          (((List.range n).filter (fun j => has.getD j false)).map (fun j => w.getD j 0)).sum +
            (if has.getD n false then w.getD n 0 else 0) := by
        unfold hit_weight_through
        rw [List.range_succ, List.filter_append, List.map_append, List.sum_append]
        by_cases hb : has[n]?.getD false = true <;> simp [List.getD_eq_getElem?_getD, hb]
      have hmiss : (miss_count_through has n : ℚ) =
          (((List.range n).filter (fun j => ! has.getD j false)).length : ℚ) +
            (if has.getD n false then 0 else 1) := by
        unfold miss_count_through
        rw [List.range_succ, List.filter_append, List.length_append]
        by_cases hb : has[n]?.getD false = true <;> simp [List.getD_eq_getElem?_getD, hb]
      rw [hthrough, hmiss]
      by_cases hb : has[n]?.getD false = true <;> simp [List.getD_eq_getElem?_getD, hb]

/-- Closed form of the real walk's running sum. -/
lemma enrichment_score_running_sum_eq (has : List Bool) (w : List ℚ) (isd inv : ℚ) :
    (enrichment_score has w (List.range has.length) isd inv false).2.2 =
      (List.range has.length).map (fun i =>
        hit_weight_through has w i * inv - (miss_count_through has i : ℚ) * isd) := by
  unfold enrichment_score
  dsimp only
  exact (es_walk_state has w inv isd has.length le_rfl).2.2

/-- C5 (amended): for a set passing the overlap filter, step `i` of the
running sum equals the accumulated hit weights over `N_r` minus the
accumulated miss count over `n - |analyte_set|`, where `|analyte_set|` is
the number of distinct members of the set (members absent from the rank
list included), not the overlap `k`. -/
theorem analyte_set_p_running_sum_formula (analytes : List String) (ranks : List ℚ)
    (item : Item) (p : ℕ) (perms : List (List ℕ)) (cfg : GSEAConfig)
    (h : ¬(set_overlap analytes item < cfg.min_overlap ∨
           set_overlap analytes item > cfg.max_overlap)) :
    (analyte_set_p analytes ranks item p perms cfg).running_sum =
      claimed_running_sum (has_analyte_vec analytes item) (weighted_ranks ranks p)
        (gsea_n_r analytes ranks item p)
        ((analytes.length - (analyte_set_of item).length : ℕ) : ℚ) := by
  unfold analyte_set_p
  rw [if_neg h]
  have hlen : (has_analyte_vec analytes item).length = analytes.length := by
    simp [has_analyte_vec]
  dsimp only
  rw [← hlen, enrichment_score_running_sum_eq]
  unfold claimed_running_sum gsea_inverse_size_dif
  rw [hlen]
  apply List.map_congr_left
  intro i _
  rw [div_eq_mul_inv, div_eq_mul_inv]
  ring

/-- C5 (counterexample): with rank list `A, B, C` (all weights 1) and set
`{A, Z}` (overlap k = 1, but two distinct members), the code's running sum
is `[1, 0, -1]` — the miss normaliser is `1/(3 - 2) = 1` — while the claimed
formula with denominator `n - k = 2` gives `[1, 1/2, 0]`. -/
theorem running_sum_uses_set_size_denominator :
    (analyte_set_p ["A", "B", "C"] [1, 1, 1] ⟨"S", "", ["A", "Z"]⟩ 1 []
      ⟨1, 1, 500, 0⟩).running_sum = [1, 0, -1] ∧
    claimed_running_sum (has_analyte_vec ["A", "B", "C"] ⟨"S", "", ["A", "Z"]⟩)
      (weighted_ranks [1, 1, 1] 1) (gsea_n_r ["A", "B", "C"] [1, 1, 1] ⟨"S", "", ["A", "Z"]⟩ 1)
      (((["A", "B", "C"] : List String).length : ℚ) -
        (set_overlap ["A", "B", "C"] ⟨"S", "", ["A", "Z"]⟩ : ℚ)) = [1, 1/2, 0] ∧
    ([1, 0, -1] : List ℚ) ≠ [1, 1/2, 0] := by
  have hset : analyte_set_of ⟨"S", "", ["A", "Z"]⟩ = ["A", "Z"] := by decide
  have hhas : has_analyte_vec ["A", "B", "C"] ⟨"S", "", ["A", "Z"]⟩ =
      [true, false, false] := by decide
  have hov : set_overlap ["A", "B", "C"] ⟨"S", "", ["A", "Z"]⟩ = 1 := by decide
  have hw : weighted_ranks [1, 1, 1] 1 = [1, 1, 1] := by decide
  have hnr : gsea_n_r ["A", "B", "C"] [1, 1, 1] ⟨"S", "", ["A", "Z"]⟩ 1 = 1 := by
    norm_num +decide [gsea_n_r, List.range_succ, hset]
  refine ⟨?_, ?_, by norm_num⟩
  · have hisd : gsea_inverse_size_dif ["A", "B", "C"] ⟨"S", "", ["A", "Z"]⟩ = 1 := by
      norm_num [gsea_inverse_size_dif, hset]
    have hes : enrichment_score [true, false, false] [1, 1, 1] (List.range 3) 1 1 false
        = (1, 1, [1, 0, -1]) := by
      norm_num [enrichment_score, es_step, perm_n_r, List.range_succ, List.getD,
        abs_eq_max_neg, max_def]
    simp [analyte_set_p, hov, hisd, hnr, hhas, hw, hes, gsea_pvalue]
  · rw [hhas, hw, hnr, hov]
    norm_num [claimed_running_sum, hit_weight_through, miss_count_through, List.range_succ,
      List.getD]

/-- Witness for the amended running-sum formula at a concrete input passing
the overlap filter. -/
theorem analyte_set_p_running_sum_formula_witness :
    ¬(set_overlap ["A", "B", "C"] ⟨"S", "", ["A", "Z"]⟩ <
        (⟨1, 1, 500, 0⟩ : GSEAConfig).min_overlap ∨
      set_overlap ["A", "B", "C"] ⟨"S", "", ["A", "Z"]⟩ >
        (⟨1, 1, 500, 0⟩ : GSEAConfig).max_overlap) ∧
    (analyte_set_p ["A", "B", "C"] [1, 1, 1] ⟨"S", "", ["A", "Z"]⟩ 1 []
      ⟨1, 1, 500, 0⟩).running_sum =
      claimed_running_sum (has_analyte_vec ["A", "B", "C"] ⟨"S", "", ["A", "Z"]⟩)
        (weighted_ranks [1, 1, 1] 1)
        (gsea_n_r ["A", "B", "C"] [1, 1, 1] ⟨"S", "", ["A", "Z"]⟩ 1)
        (((["A", "B", "C"] : List String).length -
          (analyte_set_of ⟨"S", "", ["A", "Z"]⟩).length : ℕ) : ℚ) :=
  ⟨by decide, analyte_set_p_running_sum_formula ["A", "B", "C"] [1, 1, 1]
    ⟨"S", "", ["A", "Z"]⟩ 1 [] ⟨1, 1, 500, 0⟩ (by decide)⟩

/-- The code's side-filtered p-value computation agrees with the
specification's same-sign-count formulation. -/
lemma gsea_pvalue_eq_spec (es : ℚ) (xs : List ℚ) :
    gsea_pvalue es xs = spec_gsea_p es xs := by
  unfold gsea_pvalue spec_gsea_p
  by_cases hes : es ≥ 0
  · rw [if_pos hes]
    have hes0 : (0 : ℚ) ≤ es := hes
    have h1 : (xs.filter (fun x => decide (x ≥ 0))).length =
        xs.countP (fun x => decide ((0 ≤ x) ↔ (0 ≤ es))) := by
      rw [← List.countP_eq_length_filter]
      apply List.countP_congr
      intro x _
      simp only [ge_iff_le, decide_eq_decide, iff_true_intro hes0, iff_true]
    have h2 : ((xs.filter (fun x => decide (x ≥ 0))).filter
        (fun x => decide (|x| ≥ |es|))).length =
        xs.countP (fun x => decide (((0 ≤ x) ↔ (0 ≤ es)) ∧ |es| ≤ |x|)) := by
      rw [List.filter_filter, ← List.countP_eq_length_filter]
      apply List.countP_congr
      intro x _
      simp only [ge_iff_le, Bool.and_eq_decide, decide_eq_decide, iff_true_intro hes0,
        iff_true]
      simp [and_comm]
    dsimp only
    rw [h2, h1]
    by_cases c : xs.countP (fun x => decide ((0 ≤ x) ↔ (0 ≤ es))) = 0
    · rw [if_neg (not_not_intro c), if_pos c]
    · rw [if_pos c, if_neg c]
  · rw [if_neg hes]
    have hnotle : ¬((0 : ℚ) ≤ es) := fun hc => hes hc
    have h1 : (xs.filter (fun x => decide (x < 0))).length =
        xs.countP (fun x => decide ((0 ≤ x) ↔ (0 ≤ es))) := by
      rw [← List.countP_eq_length_filter]
      apply List.countP_congr
      intro x _
      simp only [decide_eq_decide, iff_false_intro hnotle, iff_false, not_le]
    have h2 : ((xs.filter (fun x => decide (x < 0))).filter
        (fun x => decide (|x| ≥ |es|))).length =
        xs.countP (fun x => decide (((0 ≤ x) ↔ (0 ≤ es)) ∧ |es| ≤ |x|)) := by
      rw [List.filter_filter, ← List.countP_eq_length_filter]
      apply List.countP_congr
      intro x _
      simp only [ge_iff_le, Bool.and_eq_decide, decide_eq_decide, iff_false_intro hnotle,
        iff_false, not_le]
      simp [and_comm]
    dsimp only
    rw [h2, h1]
    by_cases c : xs.countP (fun x => decide ((0 ≤ x) ↔ (0 ≤ es))) = 0
    · rw [if_neg (not_not_intro c), if_pos c]
    · rw [if_pos c, if_neg c]

/-- C8: for a set passing the overlap filter, the emitted p-value is the
fraction of same-sign permutation extrema whose absolute value meets or
exceeds `|ES|`, and it is `0` when no permutation extremum lies on the same
side as ES. -/
theorem analyte_set_p_pvalue_spec (analytes : List String) (ranks : List ℚ) (item : Item)
    (p : ℕ) (perms : List (List ℕ)) (cfg : GSEAConfig)
    (h : ¬(set_overlap analytes item < cfg.min_overlap ∨
           set_overlap analytes item > cfg.max_overlap)) :
    (analyte_set_p analytes ranks item p perms cfg).p =
      spec_gsea_p
        (enrichment_score (has_analyte_vec analytes item) (weighted_ranks ranks p)
          (List.range analytes.length) (gsea_inverse_size_dif analytes item)
          (1 / gsea_n_r analytes ranks item p) false).1
        (perms.map (fun ord =>
          (enrichment_score (has_analyte_vec analytes item) (weighted_ranks ranks p) ord
            (gsea_inverse_size_dif analytes item)
            (1 / gsea_n_r analytes ranks item p) true).1)) ∧
    ((perms.map (fun ord =>
        (enrichment_score (has_analyte_vec analytes item) (weighted_ranks ranks p) ord
          (gsea_inverse_size_dif analytes item)
          (1 / gsea_n_r analytes ranks item p) true).1)).countP
      (fun x => decide ((0 ≤ x) ↔ (0 ≤
        (enrichment_score (has_analyte_vec analytes item) (weighted_ranks ranks p)
          (List.range analytes.length) (gsea_inverse_size_dif analytes item)
          (1 / gsea_n_r analytes ranks item p) false).1))) = 0 →
      (analyte_set_p analytes ranks item p perms cfg).p = 0) := by
  have hmain : (analyte_set_p analytes ranks item p perms cfg).p =
      spec_gsea_p
        (enrichment_score (has_analyte_vec analytes item) (weighted_ranks ranks p)
          (List.range analytes.length) (gsea_inverse_size_dif analytes item)
          (1 / gsea_n_r analytes ranks item p) false).1
        (perms.map (fun ord =>
          (enrichment_score (has_analyte_vec analytes item) (weighted_ranks ranks p) ord
            (gsea_inverse_size_dif analytes item)
            (1 / gsea_n_r analytes ranks item p) true).1)) := by
    unfold analyte_set_p
    rw [if_neg h]
    dsimp only
    exact gsea_pvalue_eq_spec _ _
  refine ⟨hmain, fun hc => ?_⟩
  rw [hmain]
  unfold spec_gsea_p
  rw [if_pos hc]

/-- Witness for the p-value theorem: a concrete two-permutation run through
a set passing the overlap filter (the resulting p-value is 1: one of the two
extrema lies on the ES side and meets `|ES|`). -/
theorem analyte_set_p_pvalue_spec_witness :
    ¬(set_overlap ["A", "B", "C"] ⟨"S", "", ["A", "Z"]⟩ <
        (⟨1, 1, 500, 2⟩ : GSEAConfig).min_overlap ∨
      set_overlap ["A", "B", "C"] ⟨"S", "", ["A", "Z"]⟩ >
        (⟨1, 1, 500, 2⟩ : GSEAConfig).max_overlap) ∧
    (analyte_set_p ["A", "B", "C"] [1, 1, 1] ⟨"S", "", ["A", "Z"]⟩ 1 [[0, 1, 2], [2, 1, 0]]
      ⟨1, 1, 500, 2⟩).p =
      spec_gsea_p
        (enrichment_score (has_analyte_vec ["A", "B", "C"] ⟨"S", "", ["A", "Z"]⟩)
          (weighted_ranks [1, 1, 1] 1)
          (List.range (["A", "B", "C"] : List String).length)
          (gsea_inverse_size_dif ["A", "B", "C"] ⟨"S", "", ["A", "Z"]⟩)
          (1 / gsea_n_r ["A", "B", "C"] [1, 1, 1] ⟨"S", "", ["A", "Z"]⟩ 1) false).1
        ([[0, 1, 2], [2, 1, 0]].map (fun ord =>
          (enrichment_score (has_analyte_vec ["A", "B", "C"] ⟨"S", "", ["A", "Z"]⟩)
            (weighted_ranks [1, 1, 1] 1) ord
            (gsea_inverse_size_dif ["A", "B", "C"] ⟨"S", "", ["A", "Z"]⟩)
            (1 / gsea_n_r ["A", "B", "C"] [1, 1, 1] ⟨"S", "", ["A", "Z"]⟩ 1) true).1)) :=
  ⟨by decide, (analyte_set_p_pvalue_spec ["A", "B", "C"] [1, 1, 1] ⟨"S", "", ["A", "Z"]⟩ 1
    [[0, 1, 2], [2, 1, 0]] ⟨1, 1, 500, 2⟩ (by decide)).1⟩

/-- C7: `max_combine` compares the new occurrence's absolute value against
the RAW stored value (line 195), so a stored negative rank of large
magnitude is overwritten by a later occurrence of smaller magnitude: for
occurrences `-5` then `1` of the same analyte the result keeps `1`, although
`|-5| > |1|`. -/
theorem max_combine_overwrites_negative_stored_rank :
    max_combine [[⟨"A", -5⟩], [⟨"A", 1⟩]] NormalizationMethod.NoNorm = [⟨"A", 1⟩] ∧
    |(-5 : ℚ)| > |(1 : ℚ)| := by
  constructor
  · decide
  · decide

/-- C6: the Fisher combinator does not map into `[0,1]`: for the single
p-value `exp(-1/200) ≈ 0.995` (a valid p-value in `(0,1]`, as the second
and third conjuncts state) the code evaluates the chi-squared density with
`2^0 = 1` degree of freedom at `1/100`, which is
`10 · exp(-1/200) / (√2 · √π) ≈ 3.97 > 1`. -/
theorem fisher_exceeds_one :
    1 < fisher [Real.exp (-(1 / 200))] ∧
    0 < Real.exp (-(1 / 200) : ℝ) ∧ Real.exp (-(1 / 200) : ℝ) ≤ 1 := by
  refine ⟨?_, Real.exp_pos _, ?_⟩
  · have hfish : fisher [Real.exp (-(1 / 200))] =
        ((1 : ℝ) / 100) ^ (-(1 : ℝ) / 2) * Real.exp (-(1 / 200)) /
          ((2 : ℝ) ^ ((1 : ℝ) / 2) * Real.Gamma (1 / 2)) := by
      unfold fisher chi_squared_pdf
      norm_num [Real.log_exp]
    have h10 : ((1 : ℝ) / 100) ^ (-(1 : ℝ) / 2) = 10 := by
      rw [show (-(1 : ℝ) / 2) = -((1 : ℝ) / 2) by ring,
        Real.rpow_neg (by norm_num), ← Real.sqrt_eq_rpow,
        show ((1 : ℝ) / 100) = (1 / 10) ^ 2 by norm_num, Real.sqrt_sq (by norm_num)]
      norm_num
    have hsq2 : (2 : ℝ) ^ ((1 : ℝ) / 2) = Real.sqrt 2 := (Real.sqrt_eq_rpow 2).symm
    have hsqrt2 : Real.sqrt 2 ≤ 2 := by
      nlinarith [Real.sq_sqrt (show (0 : ℝ) ≤ 2 by norm_num),
        Real.sqrt_nonneg (2 : ℝ)]
    have hsqpi : Real.sqrt Real.pi ≤ 2 := by
      nlinarith [Real.sq_sqrt (le_of_lt Real.pi_pos), Real.sqrt_nonneg Real.pi,
        Real.pi_le_four]
    have hpos : 0 < Real.sqrt 2 * Real.Gamma (1 / 2) := by
      rw [Real.Gamma_one_half_eq]
      have h2 : 0 < Real.sqrt 2 := Real.sqrt_pos.mpr (by norm_num)
      have hpi : 0 < Real.sqrt Real.pi := Real.sqrt_pos.mpr Real.pi_pos
      positivity
    have hexp : (199 : ℝ) / 200 ≤ Real.exp (-(1 / 200)) := by
      have := Real.add_one_le_exp (-(1 / 200) : ℝ)
      linarith
    rw [hfish, h10, hsq2]
    rw [one_lt_div hpos]
    have hbound : Real.sqrt 2 * Real.Gamma (1 / 2) ≤ 4 := by
      rw [Real.Gamma_one_half_eq]
      nlinarith [Real.sqrt_nonneg (2 : ℝ), Real.sqrt_nonneg Real.pi, hsqrt2, hsqpi]
    nlinarith
  · have h0 : (-(1 / 200) : ℝ) ≤ 0 := by norm_num
    calc Real.exp (-(1 / 200) : ℝ) ≤ Real.exp 0 := Real.exp_le_exp.mpr h0
    _ = 1 := Real.exp_zero

/-- Adjacency entries are nonnegative. -/
lemma adjacency_nonneg (edge_list : List (String × String)) (nodes : List String)
    (i j : Fin nodes.length) : 0 ≤ adjacency edge_list nodes i j := by
  unfold adjacency
  split <;> norm_num

/-- Every node of an NTA graph occurs in some edge, so its adjacency
column contains a 1 and its degree is positive. -/
lemma degree_adjacency_pos (edge_list : List (String × String))
    (j : Fin (nta_nodes edge_list).length) :
    0 < degree (nta_nodes edge_list).length (adjacency edge_list (nta_nodes edge_list)) j := by
  have hmem : (nta_nodes edge_list).get j ∈ nta_nodes edge_list := by
    rcases j with ⟨jv, hjv⟩
    exact List.get_mem _ _ hjv
  have hflat : (nta_nodes edge_list).get j ∈ (edge_list.map (fun e => [e.1, e.2])).flatten := by
    have := hmem
    unfold nta_nodes at this
    exact List.mem_dedup.mp this
  obtain ⟨l, hl, hjl⟩ := List.mem_flatten.mp hflat
  obtain ⟨e, he, hel⟩ := List.mem_map.mp hl
  subst hel
  -- the partner endpoint of e
  have hpartner : ∃ v, v ∈ nta_nodes edge_list ∧
      ((e.1 = (nta_nodes edge_list).get j ∧ e.2 = v) ∨
       (e.2 = (nta_nodes edge_list).get j ∧ e.1 = v)) := by
    rcases List.mem_pair.mp hjl with h1 | h2
    · refine ⟨e.2, ?_, Or.inl ⟨h1.symm, rfl⟩⟩
      unfold nta_nodes
      rw [List.mem_dedup]
      exact List.mem_flatten.mpr ⟨[e.1, e.2], List.mem_map.mpr ⟨e, he, rfl⟩, by simp⟩
    · refine ⟨e.1, ?_, Or.inr ⟨h2.symm, rfl⟩⟩
      unfold nta_nodes
      rw [List.mem_dedup]
      exact List.mem_flatten.mpr ⟨[e.1, e.2], List.mem_map.mpr ⟨e, he, rfl⟩, by simp⟩
  obtain ⟨v, hv, hcase⟩ := hpartner
  obtain ⟨i, hi⟩ := List.get_of_mem hv
  have hAij : adjacency edge_list (nta_nodes edge_list) i j = 1 := by
    unfold adjacency
    rw [if_pos]
    refine List.any_eq_true.mpr ⟨e, he, ?_⟩
    rcases hcase with ⟨ha, hb⟩ | ⟨ha, hb⟩
    · exact decide_eq_true (Or.inr ⟨hb.trans hi.symm, ha⟩)
    · exact decide_eq_true (Or.inl ⟨hb.trans hi.symm, ha⟩)
  unfold degree
  have hsum : adjacency edge_list (nta_nodes edge_list) i j ≤
      ∑ x, adjacency edge_list (nta_nodes edge_list) x j :=
    Finset.single_le_sum (fun x _ => adjacency_nonneg edge_list (nta_nodes edge_list) x j)
      (Finset.mem_univ i)
  rw [hAij] at hsum
  linarith

/-- The walk matrix is entrywise nonnegative. -/
lemma walk_matrix_nonneg (n : ℕ) (A : Fin n → Fin n → ℚ)
    (hA : ∀ i j, 0 ≤ A i j) (hdeg : ∀ j, 0 < degree n A j) (i j : Fin n) :
    0 ≤ walk_matrix n A i j :=
  div_nonneg (hA i j) (le_of_lt (hdeg j))

/-- Each column of the walk matrix sums to 1 (the graph is
column-stochastic when every degree is positive). -/
lemma walk_matrix_colsum (n : ℕ) (A : Fin n → Fin n → ℚ)
    (hdeg : ∀ j, 0 < degree n A j) (j : Fin n) :
    ∑ i, walk_matrix n A i j = 1 := by
  unfold walk_matrix
  rw [← Finset.sum_div]
  exact div_self (ne_of_gt (hdeg j))

/-- The restart iteration contracts the `L1` distance by the factor
`1 - r` for a nonnegative column-stochastic walk matrix. -/
lemma walk_step_contraction (n : ℕ) (W : Fin n → Fin n → ℚ) (r : ℚ)
    (p0 p q : Fin n → ℚ) (hW : ∀ i j, 0 ≤ W i j) (hcol : ∀ j, ∑ i, W i j = 1)
    (hr1 : r ≤ 1) :
    l1_dist n (walk_step n W r p0 p) (walk_step n W r p0 q) ≤
      (1 - r) * l1_dist n p q := by
  unfold l1_dist walk_step
  have hstep : ∀ i : Fin n,
      |((1 - r) * (∑ j, W i j * p j) + r * p0 i) -
        ((1 - r) * (∑ j, W i j * q j) + r * p0 i)| =
      (1 - r) * |∑ j, W i j * (p j - q j)| := by
    intro i
    have harg : ((1 - r) * (∑ j, W i j * p j) + r * p0 i) -
        ((1 - r) * (∑ j, W i j * q j) + r * p0 i) =
        (1 - r) * (∑ j, W i j * (p j - q j)) := by
      have hr2 : ∀ (A B c : ℚ), A + c - (B + c) = A - B := by intro A B c; ring
      rw [Finset.mul_sum, Finset.mul_sum, Finset.mul_sum, hr2, ← Finset.sum_sub_distrib]
      apply Finset.sum_congr rfl
      intro j _
      ring
    rw [harg, abs_mul, abs_of_nonneg (by linarith : (0 : ℚ) ≤ 1 - r)]
  calc ∑ i, |((1 - r) * (∑ j, W i j * p j) + r * p0 i) -
        ((1 - r) * (∑ j, W i j * q j) + r * p0 i)|
      = ∑ i, (1 - r) * |∑ j, W i j * (p j - q j)| := Finset.sum_congr rfl fun i _ => hstep i
    _ = (1 - r) * ∑ i, |∑ j, W i j * (p j - q j)| := by rw [Finset.mul_sum]
    _ ≤ (1 - r) * ∑ i, ∑ j, W i j * |p j - q j| := by
        apply mul_le_mul_of_nonneg_left _ (by linarith : (0 : ℚ) ≤ 1 - r)
        apply Finset.sum_le_sum
        intro i _
        calc |∑ j, W i j * (p j - q j)| ≤ ∑ j, |W i j * (p j - q j)| :=
              Finset.abs_sum_le_sum_abs _ _
          _ = ∑ j, W i j * |p j - q j| := by
              apply Finset.sum_congr rfl
              intro j _
              rw [abs_mul, abs_of_nonneg (hW i j)]
    _ = (1 - r) * ∑ j, (∑ i, W i j) * |p j - q j| := by
        rw [Finset.sum_comm]
        congr 1
        apply Finset.sum_congr rfl
        intro j _
        rw [Finset.sum_mul]
    _ = (1 - r) * ∑ j, |p j - q j| := by
        congr 1
        apply Finset.sum_congr rfl
        intro j _
        rw [hcol j, one_mul]

/-- Successive iterates of a `c`-contractive step are geometrically
close. -/
lemma nta_step_iterate_dist (n : ℕ) (step : (Fin n → ℚ) → (Fin n → ℚ)) (c : ℚ)
    (hcontr : ∀ p q, l1_dist n (step p) (step q) ≤ c * l1_dist n p q)
    (hc0 : 0 ≤ c) (p0 : Fin n → ℚ) (t : ℕ) :
    l1_dist n (step^[t + 1] p0) (step^[t] p0) ≤ c ^ t * l1_dist n (step p0) p0 := by
  induction t with
  | zero => simp
  | succ t ih =>
    have h1 : step^[t + 2] p0 = step (step^[t + 1] p0) := Function.iterate_succ_apply' step _ _
    have h2 : step^[t + 1] p0 = step (step^[t] p0) := Function.iterate_succ_apply' step _ _
    calc l1_dist n (step^[t + 2] p0) (step^[t + 1] p0)
        = l1_dist n (step (step^[t + 1] p0)) (step (step^[t] p0)) := by rw [h1, ← h2]
      _ ≤ c * l1_dist n (step^[t + 1] p0) (step^[t] p0) := hcontr _ _
      _ ≤ c * (c ^ t * l1_dist n (step p0) p0) := by
          exact mul_le_mul_of_nonneg_left ih hc0
      _ = c ^ (t + 1) * l1_dist n (step p0) p0 := by ring

/-- Archimedean step count: some power of the contraction factor brings
the initial distance below any positive tolerance. -/
lemma exists_contraction_fuel (c D tol : ℚ) (hc1 : c < 1) (hD : 0 ≤ D)
    (htol : 0 < tol) : ∃ t : ℕ, c ^ t * D ≤ tol := by
  by_cases hD0 : D = 0
  · exact ⟨0, by simp [hD0]; linarith⟩
  · have hDpos : 0 < D := lt_of_le_of_ne hD (Ne.symm hD0)
    obtain ⟨t, ht⟩ := exists_pow_lt_of_lt_one (div_pos htol hDpos) hc1
    exact ⟨t, le_of_lt ((lt_div_iff₀ hDpos).mp ht)⟩

/-- If the guard is satisfied after at most `fuel` steps, the loop stops
with a state pair `(pt, step pt)` within tolerance. -/
lemma walk_loop_reaches (n : ℕ) (step : (Fin n → ℚ) → (Fin n → ℚ)) (tol : ℚ) :
    ∀ (fuel : ℕ) (pt : Fin n → ℚ),
      l1_dist n (step (step^[fuel] pt)) (step^[fuel] pt) ≤ tol →
      ∃ pr, walk_loop n step tol fuel pt (step pt) = some pr ∧
        pr.2 = step pr.1 ∧ l1_dist n pr.2 pr.1 ≤ tol := by
  intro fuel
  induction fuel with
  | zero =>
    intro pt h
    simp only [Function.iterate_zero, id] at h
    exact ⟨(pt, step pt), by rw [walk_loop, if_pos h], rfl, h⟩
  | succ f ih =>
    intro pt h
    by_cases hc : l1_dist n (step pt) pt ≤ tol
    · exact ⟨(pt, step pt), by rw [walk_loop, if_pos hc], rfl, hc⟩
    · obtain ⟨pr, heq, h2, h3⟩ := ih (step pt) (by
        rw [← Function.iterate_succ_apply]
        exact h)
      exact ⟨pr, by rw [walk_loop, if_neg hc]; exact heq, h2, h3⟩

/-- Termination of the random walk with restart on any nonnegative matrix
with positive column degrees: some fuel suffices, and the returned vector is
one step past an iterate it is `tol`-close to. -/
lemma random_walk_terminates_general (n : ℕ) (A : Fin n → Fin n → ℚ)
    (seed_idx : List (Fin n)) (r tol : ℚ) (hA : ∀ i j, 0 ≤ A i j)
    (hdeg : ∀ j, 0 < degree n A j) (hr0 : 0 < r) (hr1 : r < 1) (htol : 0 < tol) :
    ∃ (fuel : ℕ) (pt : Fin n → ℚ),
      random_walk_probability n A seed_idx r tol fuel =
        some (nta_step n A (seed_p0 n seed_idx) r pt) ∧
      l1_dist n (nta_step n A (seed_p0 n seed_idx) r pt) pt ≤ tol := by
  have hW := walk_matrix_nonneg n A hA hdeg
  have hcol := walk_matrix_colsum n A hdeg
  set p0 := seed_p0 n seed_idx with hp0
  set step := nta_step n A p0 r with hstep
  have hcontr : ∀ p q, l1_dist n (step p) (step q) ≤ (1 - r) * l1_dist n p q := by
    intro p q
    exact walk_step_contraction n (walk_matrix n A) r p0 p q hW hcol (le_of_lt hr1)
  have hD : 0 ≤ l1_dist n (step p0) p0 := Finset.sum_nonneg (fun i _ => abs_nonneg _)
  obtain ⟨T, hT⟩ := exists_contraction_fuel (1 - r) (l1_dist n (step p0) p0) tol
    (by linarith) hD htol
  have hiter := nta_step_iterate_dist n step (1 - r) hcontr (by linarith) p0 T
  have hreach : l1_dist n (step (step^[T] p0)) (step^[T] p0) ≤ tol := by
    have h1 : step^[T + 1] p0 = step (step^[T] p0) := Function.iterate_succ_apply' step _ _
    rw [← h1]
    exact le_trans hiter hT
  obtain ⟨pr, heq, hpr2, hprtol⟩ := walk_loop_reaches n step tol T p0 hreach
  refine ⟨T, pr.1, ?_, ?_⟩
  · unfold random_walk_probability
    dsimp only
    rw [← hp0, ← hstep, heq]
    simp [hpr2]
  · rw [← hpr2]
    exact hprtol

/-- The engine returns a result whenever the inner walk loop does. -/
lemma get_nta_isSome_of_walk (edge_list : List (String × String)) (seeds : List String)
    (r tol : ℚ) (method : NTAMethod) (fuel : ℕ)
    (h : (random_walk_probability (nta_nodes edge_list).length
      (adjacency edge_list (nta_nodes edge_list))
      (seed_indices (nta_nodes edge_list) seeds) r tol fuel).isSome) :
    (get_nta edge_list seeds r tol method fuel).isSome := by
  unfold get_nta process_nta
  simpa using h

/-- C10: for every edge list, non-empty seed set occurring in the edge
list, reset probability in `(0,1)` and positive tolerance, the
random-walk-with-restart iteration terminates (some fuel makes the loop
stop), the returned vector `p_new` satisfies
`Σ |p_new - p_old| ≤ tolerance` against the previous iterate, and every
returned neighborhood has at most the requested size. -/
theorem nta_walk_terminates_within_tolerance
    (edge_list : List (String × String)) (seeds : List String) (r tol : ℚ)
    (_hne : seeds ≠ []) (_hsub : ∀ s ∈ seeds, s ∈ nta_nodes edge_list)
    (hr0 : 0 < r) (hr1 : r < 1) (htol : 0 < tol) :
    (∃ (fuel : ℕ) (pt : Fin (nta_nodes edge_list).length → ℚ),
      random_walk_probability (nta_nodes edge_list).length
          (adjacency edge_list (nta_nodes edge_list))
          (seed_indices (nta_nodes edge_list) seeds) r tol fuel =
        some (nta_step (nta_nodes edge_list).length
          (adjacency edge_list (nta_nodes edge_list))
          (seed_p0 (nta_nodes edge_list).length (seed_indices (nta_nodes edge_list) seeds))
          r pt) ∧
      l1_dist (nta_nodes edge_list).length
        (nta_step (nta_nodes edge_list).length
          (adjacency edge_list (nta_nodes edge_list))
          (seed_p0 (nta_nodes edge_list).length (seed_indices (nta_nodes edge_list) seeds))
          r pt) pt ≤ tol) ∧
    (∀ method : NTAMethod, ∃ fuel : ℕ,
      (get_nta edge_list seeds r tol method fuel).isSome) ∧
    (∀ (method : NTAMethod) (fuel : ℕ) (res : NTAResult),
      get_nta edge_list seeds r tol method fuel = some res →
      res.neighborhood.length ≤ nta_size method) := by
  obtain ⟨fuel, pt, heq, htolpt⟩ := random_walk_terminates_general
    (nta_nodes edge_list).length (adjacency edge_list (nta_nodes edge_list))
    (seed_indices (nta_nodes edge_list) seeds) r tol
    (adjacency_nonneg edge_list (nta_nodes edge_list)) (degree_adjacency_pos edge_list)
    hr0 hr1 htol
  refine ⟨⟨fuel, pt, heq, htolpt⟩, ?_, ?_⟩
  · intro method
    exact ⟨fuel, get_nta_isSome_of_walk edge_list seeds r tol method fuel
      (by rw [heq]; rfl)⟩
  · intro method fuel2 res h
    unfold get_nta at h
    obtain ⟨v, hv, hres⟩ := Option.map_eq_some'.mp h
    subst hres
    cases method with
    | Prioritize size =>
      simp only [nta_size, List.length_map, List.length_take]
      exact Nat.min_le_left _ _
    | Expand size =>
      simp only [nta_size, List.length_map, List.length_take]
      exact Nat.min_le_left _ _

/-- Witness for the NTA theorem: the one-edge graph `a — b` with seed `a`,
reset probability `1/2` and tolerance `1`. -/
theorem nta_walk_terminates_witness :
    (["a"] : List String) ≠ [] ∧
    (∀ s ∈ (["a"] : List String), s ∈ nta_nodes [("a", "b")]) ∧
    (0 : ℚ) < 1/2 ∧ (1/2 : ℚ) < 1 ∧ (0 : ℚ) < 1 ∧
    ((∃ (fuel : ℕ) (pt : Fin (nta_nodes [("a", "b")]).length → ℚ),
      random_walk_probability (nta_nodes [("a", "b")]).length
          (adjacency [("a", "b")] (nta_nodes [("a", "b")]))
          (seed_indices (nta_nodes [("a", "b")]) ["a"]) (1/2) 1 fuel =
        some (nta_step (nta_nodes [("a", "b")]).length
          (adjacency [("a", "b")] (nta_nodes [("a", "b")]))
          (seed_p0 (nta_nodes [("a", "b")]).length (seed_indices (nta_nodes [("a", "b")]) ["a"]))
          (1/2) pt) ∧
      l1_dist (nta_nodes [("a", "b")]).length
        (nta_step (nta_nodes [("a", "b")]).length
          (adjacency [("a", "b")] (nta_nodes [("a", "b")]))
          (seed_p0 (nta_nodes [("a", "b")]).length (seed_indices (nta_nodes [("a", "b")]) ["a"]))
          (1/2) pt) pt ≤ 1) ∧
    (∀ method : NTAMethod, ∃ fuel : ℕ,
      (get_nta [("a", "b")] ["a"] (1/2) 1 method fuel).isSome) ∧
    (∀ (method : NTAMethod) (fuel : ℕ) (res : NTAResult),
      get_nta [("a", "b")] ["a"] (1/2) 1 method fuel = some res →
      res.neighborhood.length ≤ nta_size method)) :=
  ⟨by decide, by decide, by norm_num, by norm_num, by norm_num,
    nta_walk_terminates_within_tolerance [("a", "b")] ["a"] (1/2) 1
      (by decide) (by decide) (by norm_num) (by norm_num) (by norm_num)⟩
